import Mathlib

/-!
Verification of a segregated-free-list memory allocator (src/mm.c).

The heap is modelled as a list of blocks tiling the region between the two
FENCE sentinel tags.  Addresses are word indices into the heap: the opening
FENCE (prologue footer) occupies word 0, the first block starts at word 1,
and a block whose base is `a` of size `s` (in 4-byte words, header and footer
included, as in `struct boundary_tag`) spans words `[a, a+s)`; the epilogue
FENCE sits just past the last block.  The payload of a block with base `a`
starts at byte address `heapBase + 4*a + 4` (one word past the header).

The segregated free lists (`segList[NLISTS]` in the source) are modelled as a
list of NLISTS = 20 lists of block base addresses, each in front-to-back
order.  The intrusive doubly-linked list from list.h is an external
collaborator: `list_push_front` / `list_insert` / `list_remove` become the
corresponding operations on these address lists (`list_remove` removes the
node wherever it is linked, which for an address list means filtering the
address out).

The sbrk region provider is modelled by a word budget `avail`: `mem_sbrk`
succeeds exactly when the requested word count does not exceed the budget.
-/

/-- One heap block: its `size` field (in words, covering header, body and
footer) and its `inuse` bit, as packed in `struct boundary_tag`.  Header and
footer always carry the same tag in the source (`mark_block_used` /
`mark_block_free` write both), so one record per block suffices. -/
structure Block where
  size : Nat
  inuse : Bool
deriving Repr, DecidableEq

/-- Allocator state: the blocks tiling the heap between the FENCEs in address
order, the NLISTS segregated free lists (lists of block base addresses,
front to back), and the remaining word budget of the region provider. -/
structure AllocState where
  blks : List Block
  lists : List (List Nat)
  avail : Nat
deriving Repr, DecidableEq

/-- NLISTS from mm.c: number of segregated free lists. -/
def NLISTS : Nat := 20

/-- CHUNKSIZE from mm.c: `1 << 8` words. -/
def CHUNKSIZE : Nat := 256

/-- MIN_BLOCK_SIZE_WORDS from mm.c. -/
def MINBLOCK : Nat := 4

/-- The shared size-class loop of `insert` and `find_fit`:
`while (count < NLISTS - 1 && asize > 1) { asize >>= 1; count++; }`.
The fuel argument encodes `NLISTS - 1 - count`, so the guard `count < 19`
is exactly `fuel > 0`; both callers start with `count = 0`, fuel 19.
Returns the final `(count, asize)` pair — note the loop destroys `asize`. -/
def bucketLoop : Nat → Nat → Nat → Nat × Nat
  | 0, count, n => (count, n)
  | fuel + 1, count, n =>
    if 1 < n then bucketLoop fuel (count + 1) (n / 2) else (count, n)

/-- Final `(count, asize)` of the size-class loop started at `count = 0`. -/
def bucketPair (n : Nat) : Nat × Nat := bucketLoop 19 0 n

/-- The list index chosen for a block of `n` words. -/
def bucket (n : Nat) : Nat := (bucketPair n).1

/-- Locate the block whose base address is `addr`, walking the tiling from
word address `cur` (the heap walk starts at word 1, just past the prologue
FENCE).  Returns the blocks before it, the block itself and the blocks after
it.  This models the source's direct pointer addressing of a block. -/
def splitAtAddr (addr : Nat) : Nat → List Block → Option (List Block × Block × List Block)
  | _, [] => none
  | cur, b :: bs =>
    if cur = addr then some ([], b, bs)
    else
      match splitAtAddr addr (cur + b.size) bs with
      | some (pre, x, suf) => some (b :: pre, x, suf)
      | none => none

/-- `blk_size` of the block based at `a` (0 when no block starts there). -/
def sizeOfBlk (st : AllocState) (a : Nat) : Nat :=
  match splitAtAddr a 1 st.blks with
  | some (_, b, _) => b.size
  | none => 0

/-- The `inuse` bit seen through `prev_blk_footer`: the footer of the block
just before, or the prologue FENCE (`inuse = 1`) at the left heap end. -/
def prevInuse (pre : List Block) : Bool :=
  match pre.getLast? with
  | some p => p.inuse
  | none => true

/-- The `inuse` bit seen through `next_blk_header`: the header of the block
just after, or the epilogue FENCE (`inuse = 1`) at the right heap end. -/
def nextInuse (suf : List Block) : Bool :=
  match suf with
  | n :: _ => n.inuse
  | [] => true

/-- Total word size of a run of blocks. -/
def sumSizes : List Block → Nat
  | [] => 0
  | b :: bs => b.size + sumSizes bs

/-- `list_remove` on the segregated index: unlink the node of the block
based at `a` from whichever list it is linked into. -/
def removeAddr (lists : List (List Nat)) (a : Nat) : List (List Nat) :=
  lists.map (fun l => l.filter (fun x => x ≠ a))

/-- The scan-and-link part of `insert`: walk the chosen list front to back
and link the new node before the first element `x` with `key ≤ blk_size(x)`,
or at the tail if none qualifies; an empty list becomes the singleton
(`list_push_front`).  `key` is the value of `asize` AFTER the size-class
loop has shifted it down (the source reuses the destroyed variable). -/
def insertList (st : AllocState) (key a : Nat) : List Nat → List Nat
  | [] => [a]
  | x :: xs =>
    if key ≤ sizeOfBlk st x then a :: x :: xs
    else x :: insertList st key a xs

/-- `insert(bp, asize)` from mm.c: compute the size class of `asize` (the
loop shifts `asize` down in place) and link the block based at `a` into that
list using the shifted value as comparison key. -/
def insert (st : AllocState) (a : Nat) (asize : Nat) : AllocState :=
  let p := bucketPair asize
  { st with lists := st.lists.set p.1 (insertList st p.2 a (st.lists.getD p.1 [])) }

/-- `coalesce(bp)` from mm.c: four cases keyed on the `inuse` bits read via
`prev_blk_footer` and `next_blk_header` (FENCEs read as in use).  Absorbed
neighbours are removed from their lists, the merged block is marked free
(its size written to header and footer) and inserted; the base of the
resulting free block is returned alongside the new state. -/
def coalesce (st : AllocState) (a : Nat) : AllocState × Nat :=
  match splitAtAddr a 1 st.blks with
  | none => (st, a)
  | some (pre, b, suf) =>
    match prevInuse pre, nextInuse suf with
    | true, true =>
      (insert st a b.size, a)
    | true, false =>
      match suf with
      | [] => (st, a)
      | n :: rest =>
        let st1 : AllocState :=
          { st with blks := pre ++ ⟨b.size + n.size, false⟩ :: rest,
                    lists := removeAddr st.lists (a + b.size) }
        (insert st1 a (b.size + n.size), a)
    | false, true =>
      match pre.getLast? with
      | none => (st, a)
      | some p =>
        let r := a - p.size
        let st1 : AllocState :=
          { st with blks := pre.dropLast ++ ⟨p.size + b.size, false⟩ :: suf,
                    lists := removeAddr st.lists r }
        (insert st1 r (p.size + b.size), r)
    | false, false =>
      match pre.getLast?, suf with
      | some p, n :: rest =>
        let r := a - p.size
        let st1 : AllocState :=
          { st with blks := pre.dropLast ++ ⟨p.size + b.size + n.size, false⟩ :: rest,
                    lists := removeAddr (removeAddr st.lists (a + b.size)) r }
        (insert st1 r (p.size + b.size + n.size), r)
      | _, _ => (st, a)

/-- Round up to an even word count: `words = (words + 1) & ~1`. -/
def evenUp (w : Nat) : Nat := w + w % 2

/-- `extend_heap(words)` from mm.c: round the request to an even count and to
at least MIN_BLOCK_SIZE_WORDS, ask the region provider, overlay the old
epilogue with the new free block's header (so the new block starts at the old
heap end), write a fresh epilogue FENCE past it, and return through
`coalesce`.  `none` models an sbrk failure (budget exceeded). -/
def extend_heap (st : AllocState) (words : Nat) : Option (AllocState × Nat) :=
  let w := max (evenUp words) MINBLOCK
  if w ≤ st.avail then
    let base := 1 + sumSizes st.blks
    let stE : AllocState :=
      { st with blks := st.blks ++ [⟨w, false⟩], avail := st.avail - w }
    some (coalesce stE base)
  else none

/-- The inner walk of `find_fit` within one list: front to back, return the
first block whose size is at least `asize`. -/
def findInList (st : AllocState) (asize : Nat) : List Nat → Option Nat
  | [] => none
  | x :: xs =>
    if asize ≤ sizeOfBlk st x then some x else findInList st asize xs

/-- The outer loop of `find_fit`: scan the remaining lists in increasing
index order (an empty list is just skipped by the inner walk). -/
def findFitLists (st : AllocState) (asize : Nat) : List (List Nat) → Option Nat
  | [] => none
  | l :: ls =>
    match findInList st asize l with
    | some x => some x
    | none => findFitLists st asize ls

/-- `find_fit(asize)` from mm.c: start at the size class of `asize`
(computed with a scratch copy `csize`, so `asize` itself survives here) and
take the first fitting block, or `none`. -/
def find_fit (st : AllocState) (asize : Nat) : Option Nat :=
  findFitLists st asize (st.lists.drop (bucket asize))

/-- `place(bp, asize)` from mm.c (final revision): if the spare space is at
least MIN_BLOCK_SIZE_WORDS, keep the low part of the block free with the
reduced size (its list node stays where it is — no list operation happens on
this path) and mark the high `asize` words used, returning the used base;
otherwise unlink the block and mark it used in full. -/
def place (st : AllocState) (a : Nat) (asize : Nat) : AllocState × Nat :=
  match splitAtAddr a 1 st.blks with
  | none => (st, a)
  | some (pre, b, suf) =>
    let csize := b.size
    if MINBLOCK ≤ csize - asize then
      ({ st with blks := pre ++ ⟨csize - asize, false⟩ :: ⟨asize, true⟩ :: suf },
       a + (csize - asize))
    else
      ({ st with blks := pre ++ ⟨csize, true⟩ :: suf,
                 lists := removeAddr st.lists a }, a)

/-- The request adjustment shared by `mm_malloc` and `mm_realloc`:
add 2 boundary tags, align to a doubleword, convert to words, and respect
the minimum block size. -/
def adjustWords (size : Nat) : Nat :=
  max MINBLOCK (((size + 8 + 7) / 8 * 8) / 4)

/-- `mm_malloc(size)` from mm.c, in the post-init regime (the lazy-init check
on `segList[0]` never fires once `mm_init` has run).  Returns the new state
and the base address of the served block (`none` on size 0 or OOM). -/
def mm_malloc (st : AllocState) (size : Nat) : AllocState × Option Nat :=
  if size = 0 then (st, none)
  else
    let awords := adjustWords size
    match find_fit st awords with
    | some a =>
      let p := place st a awords
      (p.1, some p.2)
    | none =>
      match extend_heap st (max awords CHUNKSIZE) with
      | none => (st, none)
      | some (st1, b) =>
        let p := place st1 b awords
        (p.1, some p.2)

/-- `mm_free(ptr)` from mm.c on a non-null pointer: mark the block free with
its current size and coalesce. -/
def mm_free (st : AllocState) (a : Nat) : AllocState :=
  match splitAtAddr a 1 st.blks with
  | none => st
  | some (pre, b, suf) =>
    (coalesce { st with blks := pre ++ ⟨b.size, false⟩ :: suf } a).1

/-- `mark_block_used(oldblock, oldsize + blk_size(next_bp))` in the realloc
grow-in-place paths: the block based at `a` absorbs exactly the block that
follows it and is marked used over the combined extent. -/
def markUsedAbsorbNext (st : AllocState) (a : Nat) : AllocState :=
  match splitAtAddr a 1 st.blks with
  | some (pre, b, n :: rest) =>
    { st with blks := pre ++ ⟨b.size + n.size, true⟩ :: rest }
  | _ => st

/-- Result of `mm_realloc`: final state, returned pointer (block base), and
the byte count of the `memcpy` on the fallback path (`none` when no copy
was performed). -/
structure RallocOut where
  st : AllocState
  ret : Option Nat
  copied : Option Nat
deriving Repr, DecidableEq

/-- The fallback tail of `mm_realloc`: `mm_malloc(osize)` with the original
byte request; on failure return null leaving everything untouched; otherwise
`memcpy(newptr, ptr, oldsize * WSIZE)` — the source multiplies the old BLOCK
size in words by `WSIZE`, so the copy length is the whole old block in bytes —
then `mm_free(ptr)` and return the new pointer. -/
def reallocFallback (st : AllocState) (a : Nat) (size oldsize : Nat) : RallocOut :=
  match mm_malloc st size with
  | (st1, none) => ⟨st1, none, none⟩
  | (st1, some nb) => ⟨mm_free st1 a, some nb, some (oldsize * 4)⟩

/-- `mm_realloc(ptr, size)` from mm.c: null pointer → `mm_malloc`; size 0 →
`mm_free` and null; then the four no-copy cases (shrink-and-split, grow into
the epilogue, grow into a free successor with or without split, grow into a
free successor that touches the epilogue), falling through to the
malloc/memcpy/free tail otherwise. -/
def mm_realloc_full (st : AllocState) (ptr : Option Nat) (size : Nat) : RallocOut :=
  match ptr with
  | none =>
    let r := mm_malloc st size
    ⟨r.1, r.2, none⟩
  | some a =>
    if size = 0 then ⟨mm_free st a, none, none⟩
    else
      match splitAtAddr a 1 st.blks with
      | none => ⟨st, none, none⟩
      | some (pre, oldb, suf) =>
        let oldsize := oldb.size
        let asize := adjustWords size
        if asize ≤ oldsize then
          -- Case 1: shrink; split off the tail when it is big enough and
          -- link it into its list (no coalescing happens on this path).
          if MINBLOCK ≤ oldsize - asize then
            let st1 : AllocState :=
              { st with blks := pre ++ ⟨asize, true⟩ :: ⟨oldsize - asize, false⟩ :: suf }
            ⟨insert st1 (a + asize) (oldsize - asize), some a, none⟩
          else ⟨st, some a, none⟩
        else
          match suf with
          | [] =>
            -- Case 2: next tag is the epilogue FENCE; extend the heap (the
            -- new block coalesces trivially), unlink it and absorb it.
            match extend_heap st (max (asize - oldsize) CHUNKSIZE) with
            | none => ⟨st, none, none⟩
            | some (st1, nb) =>
              let st2 : AllocState := { st1 with lists := removeAddr st1.lists nb }
              ⟨markUsedAbsorbNext st2 a, some a, none⟩
          | nb :: rest =>
            if nb.inuse = false then
              if asize ≤ oldsize + nb.size then
                -- Case 3: the free successor is big enough; unlink it and
                -- either split the surplus off as a new free block or
                -- absorb the successor whole.
                if MINBLOCK ≤ oldsize + nb.size - asize then
                  let st1 : AllocState :=
                    { st with
                      blks := pre ++ ⟨asize, true⟩ :: ⟨oldsize + nb.size - asize, false⟩ :: rest,
                      lists := removeAddr st.lists (a + oldsize) }
                  ⟨insert st1 (a + asize) (oldsize + nb.size - asize), some a, none⟩
                else
                  ⟨{ st with blks := pre ++ ⟨oldsize + nb.size, true⟩ :: rest,
                             lists := removeAddr st.lists (a + oldsize) }, some a, none⟩
              else if rest = [] then
                -- Case 4: free successor too small but it touches the
                -- epilogue; extend the heap (the extension coalesces into
                -- the successor), unlink the grown successor and absorb it.
                match extend_heap st (max (asize - oldsize - nb.size) CHUNKSIZE) with
                | none => ⟨st, none, none⟩
                | some (st1, _) =>
                  let st2 : AllocState :=
                    { st1 with lists := removeAddr st1.lists (a + oldsize) }
                  ⟨markUsedAbsorbNext st2 a, some a, none⟩
              else reallocFallback st a size oldsize
            else reallocFallback st a size oldsize

/-- The public view of `mm_realloc`: state and returned pointer. -/
def mm_realloc (st : AllocState) (ptr : Option Nat) (size : Nat) :
    AllocState × Option Nat :=
  ((mm_realloc_full st ptr size).st, (mm_realloc_full st ptr size).ret)

/-- `mm_init()` from mm.c, parametrised by the region provider's word
budget: take 2 words for the two FENCEs, then `extend_heap(CHUNKSIZE)`;
`none` models the −1 failure return. -/
def initState (avail : Nat) : Option AllocState :=
  if 2 ≤ avail then
    match extend_heap
        { blks := [], lists := List.replicate NLISTS [], avail := avail - 2 }
        CHUNKSIZE with
    | some (st1, _) => some st1
    | none => none
  else none

/-- Does a used block start at address `a`?  (`free`/`realloc` arguments in a
valid call sequence are exactly such addresses.) -/
def isUsedBase (st : AllocState) (a : Nat) : Bool :=
  match splitAtAddr a 1 st.blks with
  | some (_, b, _) => b.inuse
  | none => false

/-- Does a free block start at address `a`? -/
def isFreeBase (st : AllocState) (a : Nat) : Bool :=
  match splitAtAddr a 1 st.blks with
  | some (_, b, _) => !b.inuse
  | none => false

/-- A valid argument for `mm_realloc`: null, or the base of a live block. -/
def validArg (st : AllocState) : Option Nat → Bool
  | none => true
  | some a => isUsedBase st a

/-- States reachable by valid sequences of public API calls from `mm_init`. -/
inductive Reachable : AllocState → Prop
  | init : ∀ avail st, initState avail = some st → Reachable st
  | malloc : ∀ st s, Reachable st → Reachable (mm_malloc st s).1
  | free : ∀ st a, Reachable st → isUsedBase st a = true → Reachable (mm_free st a)
  | realloc : ∀ st p s, Reachable st → validArg st p = true → Reachable (mm_realloc st p s).1

/-- No two adjacent blocks in the tiling are both free. -/
def noAdjFree : List Block → Bool
  | b1 :: b2 :: rest => (b1.inuse || b2.inuse) && noAdjFree (b2 :: rest)
  | _ => true

/-- Both neighbour tags of the block based at `a` read as in use. -/
def neighborsInuse (st : AllocState) (a : Nat) : Bool :=
  match splitAtAddr a 1 st.blks with
  | some (pre, _, suf) => prevInuse pre && nextInuse suf
  | none => false

/-- `check_coalescing` from mm.c: every block reachable through a segregated
list has both neighbour tags in use. -/
def check_coalescing (st : AllocState) : Bool :=
  st.lists.all (fun l => l.all (neighborsInuse st))

/-- Total number of occurrences of address `a` across all segregated lists. -/
def countAll (lists : List (List Nat)) (a : Nat) : Nat :=
  (lists.map (fun l => l.count a)).sum

/-- Byte address of the payload of the block based at word index `a`, given
the byte address of the start of the heap (the prologue FENCE). -/
def payloadAddr (heapBase : Nat) (a : Nat) : Nat := heapBase + 4 * a + 4

/-- Simultaneous-copy model of the `memcpy(dst, src, n)` call on the realloc
fallback path, over a byte-addressed memory. -/
def memcpyBytes (mem : Nat → Nat) (dst src n : Nat) : Nat → Nat :=
  fun i => if dst ≤ i ∧ i < dst + n then mem (src + (i - dst)) else mem i

/-! ### Concrete API traces used to exhibit code/spec divergences -/

/-- State after `mm_init` with a 600-word region budget:
one free block of CHUNKSIZE = 256 words, linked in list 8. -/
def trA : AllocState := (initState 600).getD ⟨[], [], 0⟩

/-- After `malloc(100)` (28 words, placed at the high end of the free block). -/
def trB : AllocState := (mm_malloc trA 100).1

/-- After a further `malloc(50)` (16 words). -/
def trC : AllocState := (mm_malloc trB 50).1

/-- After `free` of the first allocation (base 229): heap is
[free 212][used 16 @213][free 28 @229]. -/
def trD : AllocState := mm_free trC 229

/-- After `realloc(p2, 8)` shrinking the 16-word block at 213 to 4 words. -/
def trE : AllocState := (mm_realloc trD (some 213) 8).1

/-- After `malloc(1)` directly on the freshly initialised heap. -/
def trF : AllocState := (mm_malloc trA 1).1

/-- Claim C1 (refuted, code bug): after the valid call sequence
`init; p1 = malloc(100); p2 = malloc(50); free(p1); realloc(p2, 8)` the heap
contains two adjacent free blocks (12 words at 217 and 28 words at 229):
the realloc shrink path inserts the released tail without coalescing it, so
the no-adjacent-free invariant P7 fails after a public call, and the
allocator's own `check_coalescing` sweep reports the failure. -/
theorem realloc_shrink_breaks_no_adjacent_free :
    Reachable trE ∧
    (mm_realloc trD (some 213) 8).2 = some 213 ∧
    trE.blks = [⟨212, false⟩, ⟨4, true⟩, ⟨12, false⟩, ⟨28, false⟩] ∧
    noAdjFree trE.blks = false ∧
    check_coalescing trE = false := by
  refine ⟨?_, by decide, by decide, by decide, by decide⟩
  exact Reachable.realloc trD (some 213) 8
    (Reachable.free trC 229
      (Reachable.malloc trB 50 (Reachable.malloc trA 100
        (Reachable.init 600 trA (by decide)))) (by decide)) (by decide)

/-- Claim C2 (refuted, code bug): on the shrink path of `realloc(p, s)` with
`need ≤ old_words` and `old_words − need ≥ MIN` the code does shrink the
block to `need` words, mark the `old_words − need`-word tail free and return
`p`, but it only INSERTS the tail into a list (mm.c line 331) — it never
coalesces it: at the concrete call below the 12-word tail at 217 is left as
a separate block directly before the free 28-word block at 229. -/
theorem realloc_shrink_tail_not_coalesced :
    Reachable trD ∧
    isUsedBase trD 213 = true ∧
    sizeOfBlk trD 213 = 16 ∧
    adjustWords 8 = 4 ∧
    MINBLOCK ≤ 16 - 4 ∧
    mm_realloc trD (some 213) 8 = (trE, some 213) ∧
    trE.blks = [⟨212, false⟩, ⟨4, true⟩, ⟨12, false⟩, ⟨28, false⟩] ∧
    isFreeBase trE 217 = true ∧
    isFreeBase trE 229 = true ∧
    neighborsInuse trE 217 = false := by
  refine ⟨?_, by decide, by decide, by decide, by decide, by decide, by decide,
    by decide, by decide, by decide⟩
  exact Reachable.free trC 229
    (Reachable.malloc trB 50 (Reachable.malloc trA 100
      (Reachable.init 600 trA (by decide)))) (by decide)

/-- Claim C3 (refuted, code bug): already after the valid sequence
`init; malloc(1)` a free block sits in the wrong segregated list: `place`
split the 256-word free block, leaving the 252-word remainder (still based
at address 1) linked in list 8 — the bucket of its pre-split size — while
`bucket 252 = 7`, so invariant 5 does not hold between public calls. -/
theorem place_leaves_remainder_in_stale_bucket :
    Reachable trF ∧
    (mm_malloc trA 1).2 = some 253 ∧
    trF.blks = [⟨252, false⟩, ⟨4, true⟩] ∧
    isFreeBase trF 1 = true ∧
    sizeOfBlk trF 1 = 252 ∧
    bucket 252 = 7 ∧
    trF.lists.getD 7 [] = [] ∧
    trF.lists.getD 8 [] = [1] := by
  refine ⟨?_, by decide, by decide, by decide, by decide, by decide, by decide, by decide⟩
  exact Reachable.malloc trA 1 (Reachable.init 600 trA (by decide))

/-- Heap with a free 4-word block at 1 (linked in list 2), a used 4-word
block at 5, and a free 6-word block at 9 about to be inserted. -/
def insEx : AllocState :=
  ⟨[⟨4, false⟩, ⟨4, true⟩, ⟨6, false⟩], (List.replicate 20 []).set 2 [1], 0⟩

/-- Claim C4 (refuted, code bug): `insert` shifts `asize` down to compute
the bucket and then compares the DESTROYED value (1 here) against element
sizes, so the scan always stops at the front: inserting the 6-word block at
9 into bucket 2 (which holds the 4-word block at 1) yields the list [9, 1]
with sizes [6, 4] — not the non-decreasing order [1, 9] the claim states. -/
theorem insert_not_size_ordered :
    bucket 6 = 2 ∧
    sizeOfBlk insEx 1 = 4 ∧
    sizeOfBlk insEx 9 = 6 ∧
    isFreeBase insEx 9 = true ∧
    (insert insEx 9 6).lists.getD 2 [] = [9, 1] ∧
    (insert insEx 9 6).lists.getD 2 [] ≠ [1, 9] ∧
    ¬ List.Sorted (· ≤ ·)
      (((insert insEx 9 6).lists.getD 2 []).map (sizeOfBlk insEx)) := by
  refine ⟨by decide, by decide, by decide, by decide, by decide, by decide, ?_⟩
  have hm : ((insert insEx 9 6).lists.getD 2 []).map (sizeOfBlk insEx) = [6, 4] := by decide
  rw [hm]
  intro h
  have h64 : (6 : Nat) ≤ 4 := List.rel_of_sorted_cons h 4 (by simp)
  omega

/-! ### The size-class loop and `find_fit` -/

/-- The size-class loop computes `count + min fuel (log2 n)` as its index. -/
theorem bucketLoop_fst (fuel : Nat) : ∀ count n, 1 ≤ n →
    (bucketLoop fuel count n).1 = count + min fuel (Nat.log 2 n) := by
  induction fuel with
  | zero => intro count n hn; simp [bucketLoop]
  | succ f ih =>
    intro count n hn
    by_cases h : 1 < n
    · have h2 : (2 : Nat) ≤ n := h
      have hlog : 0 < Nat.log 2 n := Nat.log_pos (by norm_num) h2
      have hdiv : 1 ≤ n / 2 := (Nat.one_le_div_iff (by norm_num)).mpr h2
      rw [bucketLoop, if_pos h, ih (count + 1) (n / 2) hdiv, Nat.log_div_base]
      omega
    · have h1 : n = 1 := by omega
      subst h1
      rw [bucketLoop, if_neg h]
      simp [Nat.log_one_right]

/-- The chosen list index is the binary logarithm capped at NLISTS − 1. -/
theorem bucket_eq_min_log (n : Nat) (hn : 1 ≤ n) :
    bucket n = min (Nat.log 2 n) 19 := by
  unfold bucket bucketPair
  rw [bucketLoop_fst 19 0 n hn]
  omega

/-- The inner walk of `find_fit` is a first-match search. -/
theorem findInList_eq_find? (st : AllocState) (n : Nat) (l : List Nat) :
    findInList st n l = l.find? (fun x => decide (n ≤ sizeOfBlk st x)) := by
  induction l with
  | nil => rfl
  | cons x xs ih =>
    by_cases h : n ≤ sizeOfBlk st x
    · simp [findInList, List.find?_cons, h]
    · simp [findInList, List.find?_cons, h, ih]

/-- The outer loop of `find_fit` is a first-match search over the
concatenation of the scanned lists. -/
theorem findFitLists_eq_find? (st : AllocState) (n : Nat) (L : List (List Nat)) :
    findFitLists st n L = L.flatten.find? (fun x => decide (n ≤ sizeOfBlk st x)) := by
  induction L with
  | nil => rfl
  | cons l ls ih =>
    rw [List.flatten_cons, List.find?_append]
    simp only [findFitLists, findInList_eq_find?, ih]
    cases h : List.find? (fun x => decide (n ≤ sizeOfBlk st x)) l with
    | some x => simp [h]
    | none => simp [h]

/-- Claim C5 (confirmed): `find_fit(n)` scans the segregated lists from index
`bucket n` upward, walks each list front to back, and returns the first
block whose size is at least `n`; it returns null exactly when no list from
`bucket n` upward holds a fitting block.  Moreover `bucket n` is the largest
`k < NLISTS` with `2^k ≤ n`. -/
theorem find_fit_first_fit (st : AllocState) (n : Nat) (hn : 1 ≤ n) :
    find_fit st n =
      ((st.lists.drop (bucket n)).flatten).find? (fun x => decide (n ≤ sizeOfBlk st x)) ∧
    (find_fit st n = none ↔
      ∀ x ∈ (st.lists.drop (bucket n)).flatten, sizeOfBlk st x < n) ∧
    bucket n ≤ NLISTS - 1 ∧
    2 ^ bucket n ≤ n ∧
    (∀ k, k < NLISTS → 2 ^ k ≤ n → k ≤ bucket n) := by
  have heq : find_fit st n =
      ((st.lists.drop (bucket n)).flatten).find? (fun x => decide (n ≤ sizeOfBlk st x)) :=
    findFitLists_eq_find? st n (st.lists.drop (bucket n))
  have hb := bucket_eq_min_log n hn
  refine ⟨heq, ?_, ?_, ?_, ?_⟩
  · rw [heq, List.find?_eq_none]
    constructor
    · intro h x hx
      have := h x hx
      simp at this
      omega
    · intro h x hx
      have := h x hx
      simp
      omega
  · unfold NLISTS; omega
  · rw [hb]
    calc 2 ^ min (Nat.log 2 n) 19 ≤ 2 ^ Nat.log 2 n :=
          Nat.pow_le_pow_right (by norm_num) (Nat.min_le_left _ _)
      _ ≤ n := Nat.pow_log_le_self 2 (by omega)
  · intro k hk hkn
    have hklog : k ≤ Nat.log 2 n :=
      (Nat.pow_le_iff_le_log (by norm_num) (by omega)).mp hkn
    rw [hb]
    unfold NLISTS at hk
    omega

/-- Witness for C5 at a concrete reachable state and request. -/
theorem find_fit_first_fit_witness :
    1 ≤ 20 ∧
    find_fit trD 20 =
      ((trD.lists.drop (bucket 20)).flatten).find? (fun x => decide (20 ≤ sizeOfBlk trD x)) ∧
    find_fit trD 20 = some 229 :=
  ⟨by decide, (find_fit_first_fit trD 20 (by decide)).1, by decide⟩

/-! ### Out-of-memory behaviour of `mm_malloc` / `mm_realloc` -/

/-- When `mm_malloc` returns null the state is untouched: both failure exits
(`size == 0` and a refused heap extension) happen before any mutation. -/
theorem mm_malloc_none (st : AllocState) (s : Nat)
    (h : (mm_malloc st s).2 = none) : (mm_malloc st s).1 = st := by
  simp only [mm_malloc] at h ⊢
  by_cases h0 : s = 0
  · simp [h0]
  · simp only [if_neg h0] at h ⊢
    cases hf : find_fit st (adjustWords s) with
    | some a => simp [hf] at h
    | none =>
      simp only [hf] at h ⊢
      cases he : extend_heap st (max (adjustWords s) CHUNKSIZE) with
      | none => simp [he]
      | some p => simp [he] at h

/-- Every null return of `mm_realloc` on a non-null pointer with a nonzero
size leaves the state untouched and copies nothing. -/
theorem mm_realloc_full_none (st : AllocState) (a s : Nat) (hs : ¬ s = 0) :
    (mm_realloc_full st (some a) s).ret = none →
    mm_realloc_full st (some a) s = ⟨st, none, none⟩ := by
  simp only [mm_realloc_full, if_neg hs]
  split
  · intro _; rfl
  · split
    · split
      · intro h; simp at h
      · intro h; simp at h
    · split
      · split
        · intro _; rfl
        · intro h; simp at h
      · split
        · split
          · split
            · intro h; simp at h
            · intro h; simp at h
          · split
            · split
              · intro _; rfl
              · intro h; simp at h
            · simp only [reallocFallback]
              split
              · rename_i st1 hmal
                intro _
                have h1 := mm_malloc_none st s (by rw [hmal])
                rw [hmal] at h1
                simp at h1
                simp [h1]
              · intro h; simp at h
        · simp only [reallocFallback]
          split
          · rename_i st1 hmal
            intro _
            have h1 := mm_malloc_none st s (by rw [hmal])
            rw [hmal] at h1
            simp at h1
            simp [h1]
          · intro h; simp at h

/-- Claim C7 (confirmed): whenever `realloc(p, s)` with non-null `p` and
`s > 0` returns null — which happens exactly when a required heap extension
is refused by the region provider or the fallback `mm_malloc` fails — the
state is exactly as before the call: the block at `p` keeps its header,
footer and position, no bytes were copied, and `p` is still the same live
allocation. -/
theorem realloc_oom_leaves_block_intact (st : AllocState) (a : Nat) (s : Nat)
    (hs : 0 < s)
    (hnone : (mm_realloc_full st (some a) s).ret = none) :
    (mm_realloc_full st (some a) s).st = st ∧
    (mm_realloc_full st (some a) s).copied = none ∧
    isUsedBase (mm_realloc_full st (some a) s).st a = isUsedBase st a := by
  have h := mm_realloc_full_none st a s (by omega) hnone
  rw [h]
  exact ⟨rfl, rfl, rfl⟩

/-- Heap with a single live 4-word block and an exhausted region provider. -/
def stOOM : AllocState := ⟨[⟨4, true⟩], List.replicate 20 [], 0⟩

/-- Witness for C7: a growing realloc on an exhausted provider returns null
and leaves the state (and the live block) exactly as it was. -/
theorem realloc_oom_witness :
    0 < 100 ∧
    (mm_realloc_full stOOM (some 1) 100).ret = none ∧
    (mm_realloc_full stOOM (some 1) 100).st = stOOM ∧
    (mm_realloc_full stOOM (some 1) 100).copied = none := by
  have h := realloc_oom_leaves_block_intact stOOM 1 100 (by decide) (by decide)
  exact ⟨by decide, by decide, h.1, h.2.1⟩

/-! ### The realloc fallback copy -/

/-- A simultaneous copy of `n` bytes moves byte `i < n` from source to
destination. -/
theorem memcpyBytes_preserves (mem : Nat → Nat) (dst src n i : Nat) (h : i < n) :
    memcpyBytes mem dst src n (dst + i) = mem (src + i) := by
  unfold memcpyBytes
  rw [if_pos ⟨Nat.le_add_right _ _, by omega⟩]
  congr 1
  omega

/-- Heap [used 4 @1][used 4 @5][free 8 @9] with list 3 holding the free
block; `realloc(p@1, 9)` must take the fallback path (the successor is in
use) and its inner `malloc(9)` is served from the free block at 9. -/
def stCopy : AllocState :=
  ⟨[⟨4, true⟩, ⟨4, true⟩, ⟨8, false⟩], (List.replicate 20 []).set 3 [9], 50⟩

/-- Claim C8 (refuted as stated): on the fallback path the source computes
`oldsize *= WSIZE; memcpy(newptr, ptr, oldsize)` (mm.c:394-395), i.e. it
copies the whole old BLOCK size in bytes — here 16 bytes — and not
`min(old_payload_bytes, s) = min(8, 9) = 8` bytes as the claim states. -/
theorem realloc_copies_more_than_min :
    sizeOfBlk stCopy 1 = 4 ∧
    isUsedBase stCopy 1 = true ∧
    (mm_realloc_full stCopy (some 1) 9).ret = some 9 ∧
    (mm_realloc_full stCopy (some 1) 9).copied = some 16 ∧
    min (4 * 4 - 8) 9 = 8 ∧
    (16 : Nat) ≠ 8 := by decide

/-- Claim C8 (amended): whenever the fallback path of `realloc(p, s)`
performs its copy, the copy length is exactly the old block's size in bytes
(`old_words * 4`, the old payload plus the 8 tag bytes around it) — never
less than `min(old_payload_bytes, s)` — after which the old block is freed
and the fresh `malloc` pointer is returned; consequently the first
`min(old_payload_bytes, s)` payload bytes are still preserved by the copy. -/
theorem realloc_fallback_copy (st : AllocState) (a s : Nat)
    (pre : List Block) (b : Block) (suf : List Block)
    (hsplit : splitAtAddr a 1 st.blks = some (pre, b, suf))
    (L : Nat)
    (hcopy : (mm_realloc_full st (some a) s).copied = some L) :
    L = b.size * 4 ∧
    min (b.size * 4 - 8) s ≤ L ∧
    (∃ st1 nb, mm_malloc st s = (st1, some nb) ∧
       mm_realloc_full st (some a) s = ⟨mm_free st1 a, some nb, some L⟩) ∧
    (∀ mem dst src i, i < min (b.size * 4 - 8) s →
       memcpyBytes mem dst src L (dst + i) = mem (src + i)) := by
  by_cases hs : s = 0
  · subst hs
    simp [mm_realloc_full] at hcopy
  · revert hcopy
    simp only [mm_realloc_full, if_neg hs, hsplit]
    split
    · split
      · intro h; simp at h
      · intro h; simp at h
    · split
      · split
        · intro h; simp at h
        · intro h; simp at h
      · split
        · split
          · split
            · intro h; simp at h
            · intro h; simp at h
          · split
            · split
              · intro h; simp at h
              · intro h; simp at h
            · simp only [reallocFallback]
              split
              · intro h; simp at h
              · rename_i st1 nb hmal
                intro h
                simp only [Option.some.injEq] at h
                subst h
                refine ⟨rfl, (min_le_left _ _).trans (Nat.sub_le _ _),
                  ⟨st1, nb, hmal, rfl⟩, ?_⟩
                intro mem dst src i hi
                exact memcpyBytes_preserves mem dst src _ i
                  (lt_of_lt_of_le hi ((min_le_left _ _).trans (Nat.sub_le _ _)))
        · simp only [reallocFallback]
          split
          · intro h; simp at h
          · rename_i st1 nb hmal
            intro h
            simp only [Option.some.injEq] at h
            subst h
            refine ⟨rfl, (min_le_left _ _).trans (Nat.sub_le _ _),
              ⟨st1, nb, hmal, rfl⟩, ?_⟩
            intro mem dst src i hi
            exact memcpyBytes_preserves mem dst src _ i
              (lt_of_lt_of_le hi ((min_le_left _ _).trans (Nat.sub_le _ _)))

/-- Witness for the amended C8 at the concrete fallback call above. -/
theorem realloc_fallback_copy_witness :
    splitAtAddr 1 1 stCopy.blks = some ([], ⟨4, true⟩, [⟨4, true⟩, ⟨8, false⟩]) ∧
    (mm_realloc_full stCopy (some 1) 9).copied = some 16 ∧
    16 = (Block.mk 4 true).size * 4 :=
  ⟨by decide, by decide,
    (realloc_fallback_copy stCopy 1 9 [] ⟨4, true⟩ [⟨4, true⟩, ⟨8, false⟩]
      (by decide) 16 (by decide)).1⟩

/-! ### Tiling lemmas for `splitAtAddr` -/

/-- A successful block lookup decomposes the tiling and fixes the address as
the walk origin plus the sizes of the preceding blocks. -/
theorem splitAtAddr_eq (addr : Nat) (blks : List Block) :
    ∀ (cur : Nat) (pre : List Block) (b : Block) (suf : List Block),
    splitAtAddr addr cur blks = some (pre, b, suf) →
    blks = pre ++ b :: suf ∧ addr = cur + sumSizes pre := by
  induction blks with
  | nil => intro cur pre b suf h; simp [splitAtAddr] at h
  | cons x xs ih =>
    intro cur pre b suf h
    unfold splitAtAddr at h
    by_cases hc : cur = addr
    · rw [if_pos hc] at h
      simp at h
      obtain ⟨hp, hb, hs⟩ := h
      subst hp; subst hb; subst hs
      simp [sumSizes]
      omega
    · rw [if_neg hc] at h
      cases hrec : splitAtAddr addr (cur + x.size) xs with
      | none => rw [hrec] at h; simp at h
      | some t =>
        obtain ⟨p2, b2, s2⟩ := t
        rw [hrec] at h
        simp at h
        obtain ⟨hp, hb, hs⟩ := h
        obtain ⟨h1, h2⟩ := ih (cur + x.size) p2 b2 s2 hrec
        constructor
        · rw [← hp, ← hb, ← hs, h1]
          simp
        · rw [← hp]
          simp only [sumSizes]
          omega

/-- Conversely, when every block before the target has positive size the
walk finds exactly the decomposition `(P, x, S)`. -/
theorem splitAtAddr_append (addr : Nat) (P : List Block) :
    ∀ (cur : Nat) (x : Block) (S : List Block),
    (∀ c ∈ P, 0 < c.size) → addr = cur + sumSizes P →
    splitAtAddr addr cur (P ++ x :: S) = some (P, x, S) := by
  induction P with
  | nil =>
    intro cur x S _ haddr
    simp [sumSizes] at haddr
    subst haddr
    simp [splitAtAddr]
  | cons p P ih =>
    intro cur x S hpos haddr
    have hppos : 0 < p.size := hpos p (by simp)
    have hPpos : ∀ c ∈ P, 0 < c.size := fun c hc => hpos c (by simp [hc])
    simp only [sumSizes] at haddr
    have hne : ¬ cur = addr := by omega
    rw [List.cons_append]
    unfold splitAtAddr
    rw [if_neg hne, ih (cur + p.size) x S hPpos (by omega)]

/-- Sizes add across concatenation. -/
theorem sumSizes_append (P Q : List Block) :
    sumSizes (P ++ Q) = sumSizes P + sumSizes Q := by
  induction P with
  | nil => simp [sumSizes]
  | cons p P ih => simp [sumSizes, ih]; omega

/-- `coalesce` with both neighbour tags in use just inserts the block. -/
theorem coalesce_case1 (st : AllocState) (a : Nat)
    (pre : List Block) (b : Block) (suf : List Block)
    (hsplit : splitAtAddr a 1 st.blks = some (pre, b, suf))
    (hp : prevInuse pre = true) (hn : nextInuse suf = true) :
    coalesce st a = (insert st a b.size, a) := by
  unfold coalesce
  simp only [hsplit, hp, hn]

/-- The word count `mm_malloc`/`mm_realloc` derive from a byte request is
always even (the byte total is 8-aligned before dividing by the word size). -/
theorem adjustWords_even (s : Nat) : adjustWords s % 2 = 0 := by
  unfold adjustWords MINBLOCK
  rw [Nat.mul_div_assoc _ (by norm_num : (4 : Nat) ∣ 8)]
  omega

/-- Rounding an even count up to an even count is the identity. -/
theorem evenUp_of_even (n : Nat) (h : n % 2 = 0) : evenUp n = n := by
  unfold evenUp
  omega

/-! ### Realloc growth into the epilogue (Case 2) -/

/-- `insert` touches only the segregated lists. -/
theorem insert_blks (st : AllocState) (a n : Nat) : (insert st a n).blks = st.blks := rfl

/-- `insert` leaves the provider budget alone. -/
theorem insert_avail (st : AllocState) (a n : Nat) : (insert st a n).avail = st.avail := rfl

/-- When the last block before the epilogue is in use, `extend_heap`
coalesces trivially: the fresh free block is inserted as-is and returned. -/
theorem extend_heap_last_used (st : AllocState) (w : Nat)
    (hpos : ∀ c ∈ st.blks, 0 < c.size)
    (hlast : prevInuse st.blks = true)
    (hweven : w % 2 = 0) (hw4 : 4 ≤ w)
    (havail : w ≤ st.avail) :
    extend_heap st w =
      some (insert { st with blks := st.blks ++ [⟨w, false⟩], avail := st.avail - w }
              (1 + sumSizes st.blks) w,
            1 + sumSizes st.blks) := by
  simp only [extend_heap]
  have h1 : max (evenUp w) MINBLOCK = w := by
    rw [evenUp_of_even w hweven]
    unfold MINBLOCK
    omega
  rw [h1, if_pos havail]
  congr 1
  exact coalesce_case1 _ _ st.blks ⟨w, false⟩ []
    (splitAtAddr_append _ st.blks 1 ⟨w, false⟩ [] hpos (by omega))
    hlast rfl

/-- Claim C10 (confirmed): for `realloc(p, s)` with `p` non-null, `s > 0`,
adjusted need above the old size, and the old block last before the epilogue
FENCE, a successful heap extension grows the heap by
`max(need − old_words, CHUNKSIZE)` words (even-rounded, which is a no-op on
the even operands arising here) and the old block absorbs the whole
extension with no split: its final in-use size is the old size plus the full
extension — at least `need`, and exceeding `need` by at most CHUNKSIZE —
and `p` itself is returned. -/
theorem realloc_grow_into_epilogue (st : AllocState) (a s : Nat)
    (pre : List Block) (b : Block)
    (hsplit : splitAtAddr a 1 st.blks = some (pre, b, []))
    (hused : b.inuse = true)
    (heven : b.size % 2 = 0)
    (hpos : ∀ c ∈ st.blks, 0 < c.size)
    (hs : ¬ s = 0)
    (hgrow : b.size < adjustWords s)
    (havail : max (adjustWords s - b.size) CHUNKSIZE ≤ st.avail) :
    (mm_realloc_full st (some a) s).ret = some a ∧
    (mm_realloc_full st (some a) s).st.blks =
      pre ++ [⟨b.size + max (adjustWords s - b.size) CHUNKSIZE, true⟩] ∧
    isUsedBase (mm_realloc_full st (some a) s).st a = true ∧
    sizeOfBlk (mm_realloc_full st (some a) s).st a =
      b.size + max (adjustWords s - b.size) CHUNKSIZE ∧
    sumSizes (mm_realloc_full st (some a) s).st.blks =
      sumSizes st.blks + max (adjustWords s - b.size) CHUNKSIZE ∧
    adjustWords s ≤ sizeOfBlk (mm_realloc_full st (some a) s).st a ∧
    sizeOfBlk (mm_realloc_full st (some a) s).st a ≤ adjustWords s + CHUNKSIZE ∧
    (mm_realloc_full st (some a) s).st.avail =
      st.avail - max (adjustWords s - b.size) CHUNKSIZE := by
  obtain ⟨hblks, haddr⟩ := splitAtAddr_eq a st.blks 1 pre b [] hsplit
  have hasize := adjustWords_even s
  have hprepos : ∀ c ∈ pre, 0 < c.size := by
    intro c hc
    exact hpos c (by rw [hblks]; simp [hc])
  have hweven : max (adjustWords s - b.size) CHUNKSIZE % 2 = 0 := by
    unfold CHUNKSIZE
    omega
  have hw4 : 4 ≤ max (adjustWords s - b.size) CHUNKSIZE := by
    unfold CHUNKSIZE
    omega
  have hlast : prevInuse st.blks = true := by
    rw [hblks]
    unfold prevInuse
    rw [List.getLast?_concat]
    exact hused
  have hext := extend_heap_last_used st (max (adjustWords s - b.size) CHUNKSIZE)
    hpos hlast hweven hw4 havail
  have hsplit2 : splitAtAddr a 1
      (st.blks ++ [(⟨max (adjustWords s - b.size) CHUNKSIZE, false⟩ : Block)]) =
      some (pre, b, [⟨max (adjustWords s - b.size) CHUNKSIZE, false⟩]) := by
    rw [hblks]
    have hass : (pre ++ b :: []) ++ [(⟨max (adjustWords s - b.size) CHUNKSIZE, false⟩ : Block)]
        = pre ++ b :: [⟨max (adjustWords s - b.size) CHUNKSIZE, false⟩] := by simp
    rw [hass]
    exact splitAtAddr_append a pre 1 b _ hprepos haddr
  have hsplit3 : splitAtAddr a 1
      (pre ++ [(⟨b.size + max (adjustWords s - b.size) CHUNKSIZE, true⟩ : Block)]) =
      some (pre, ⟨b.size + max (adjustWords s - b.size) CHUNKSIZE, true⟩, []) :=
    splitAtAddr_append a pre 1 _ [] hprepos haddr
  have hsums : sumSizes st.blks = sumSizes pre + b.size := by
    rw [hblks, sumSizes_append]
    simp [sumSizes]
  simp only [mm_realloc_full, if_neg hs, hsplit]
  rw [if_neg (by omega : ¬ adjustWords s ≤ b.size)]
  rw [hext]
  simp only [markUsedAbsorbNext, insert_blks, insert_avail, hsplit2]
  refine ⟨by trivial, by trivial, ?_, ?_, ?_, ?_, ?_, by trivial⟩
  · simp only [isUsedBase, hsplit3]
  · simp only [sizeOfBlk, hsplit3]
  · rw [sumSizes_append]
    simp only [sumSizes]
    omega
  · simp only [sizeOfBlk, hsplit3]
    unfold CHUNKSIZE
    omega
  · simp only [sizeOfBlk, hsplit3]
    unfold CHUNKSIZE
    omega

/-- Heap with one live 4-word block right before the epilogue and a provider
budget of 300 words. -/
def stGrow : AllocState := ⟨[⟨4, true⟩], List.replicate 20 [], 300⟩

/-- Witness for C10: `realloc(p@1, 9)` (need 6 > 4) extends the heap by
`max(6 − 4, 256) = 256` words and the block absorbs all of it. -/
theorem realloc_grow_into_epilogue_witness :
    (mm_realloc_full stGrow (some 1) 9).ret = some 1 ∧
    (mm_realloc_full stGrow (some 1) 9).st.blks = [⟨260, true⟩] ∧
    sizeOfBlk (mm_realloc_full stGrow (some 1) 9).st 1 = 260 := by
  have h := realloc_grow_into_epilogue stGrow 1 9 [] ⟨4, true⟩
    (by decide) (by decide) (by decide) (by decide) (by decide) (by decide) (by decide)
  refine ⟨h.1, ?_, ?_⟩
  · rw [h.2.1]; decide
  · rw [h.2.2.2.1]; decide

/-! ### Occurrence counts across the segregated lists -/

/-- `countAll` unfolds over the head list. -/
theorem countAll_cons (l : List Nat) (ls : List (List Nat)) (x : Nat) :
    countAll (l :: ls) x = l.count x + countAll ls x := by
  simp [countAll]

/-- After `list_remove` the removed block is linked nowhere. -/
theorem countAll_removeAddr_self (lists : List (List Nat)) (x : Nat) :
    countAll (removeAddr lists x) x = 0 := by
  induction lists with
  | nil => rfl
  | cons l ls ih =>
    simp only [removeAddr, List.map_cons] at ih ⊢
    rw [countAll_cons, ih]
    simp [List.count_eq_zero, List.mem_filter]

/-- `list_remove` of another block does not change a block's link count. -/
theorem countAll_removeAddr_ne (lists : List (List Nat)) (x y : Nat) (hxy : y ≠ x) :
    countAll (removeAddr lists x) y = countAll lists y := by
  induction lists with
  | nil => rfl
  | cons l ls ih =>
    simp only [removeAddr, List.map_cons] at ih ⊢
    rw [countAll_cons, countAll_cons, ih]
    congr 1
    exact List.count_filter (by simp [hxy])

/-- The scan-and-link step links the new block exactly once more. -/
theorem count_insertList_self (st : AllocState) (key a : Nat) (l : List Nat) :
    (insertList st key a l).count a = l.count a + 1 := by
  induction l with
  | nil => simp [insertList]
  | cons x xs ih =>
    unfold insertList
    by_cases h : key ≤ sizeOfBlk st x
    · rw [if_pos h]
      simp [List.count_cons]
    · rw [if_neg h]
      simp only [List.count_cons, ih]
      omega

/-- The scan-and-link step leaves other blocks' link counts alone. -/
theorem count_insertList_ne (st : AllocState) (key a y : Nat) (hy : y ≠ a) (l : List Nat) :
    (insertList st key a l).count y = l.count y := by
  induction l with
  | nil => simp [insertList, hy]
  | cons x xs ih =>
    unfold insertList
    by_cases h : key ≤ sizeOfBlk st x
    · rw [if_pos h]
      simp [List.count_cons, hy]
    · rw [if_neg h]
      simp only [List.count_cons, ih]

/-- Replacing one list with a list holding equally many `y`s keeps the total. -/
theorem countAll_set_congr (y : Nat) :
    ∀ (lists : List (List Nat)) (k : Nat) (v : List Nat),
    v.count y = (lists.getD k []).count y →
    countAll (lists.set k v) y = countAll lists y := by
  intro lists
  induction lists with
  | nil => intro k v _; simp [List.set]
  | cons l ls ih =>
    intro k v hc
    cases k with
    | zero =>
      simp only [List.getD_cons_zero] at hc
      simp only [List.set]
      rw [countAll_cons, countAll_cons, hc]
    | succ k2 =>
      simp only [List.getD_cons_succ] at hc
      simp only [List.set]
      rw [countAll_cons, countAll_cons, ih k2 v hc]

/-- Replacing list `k` (it exists) with the scan-and-link result increments
the new block's total link count. -/
theorem countAll_set_insertList (st : AllocState) (key a : Nat) :
    ∀ (lists : List (List Nat)) (k : Nat), k < lists.length →
    countAll (lists.set k (insertList st key a (lists.getD k []))) a
      = countAll lists a + 1 := by
  intro lists
  induction lists with
  | nil => intro k hk; simp at hk
  | cons l ls ih =>
    intro k hk
    cases k with
    | zero =>
      simp only [List.set, List.getD_cons_zero]
      rw [countAll_cons, countAll_cons, count_insertList_self]
      omega
    | succ k2 =>
      simp only [List.set, List.getD_cons_succ]
      rw [countAll_cons, countAll_cons, ih k2 (by simpa using hk)]
      omega

/-- The size-class index never reaches NLISTS. -/
theorem bucketLoop_fst_le (fuel : Nat) :
    ∀ count n, (bucketLoop fuel count n).1 ≤ count + fuel := by
  induction fuel with
  | zero => intro count n; simp [bucketLoop]
  | succ f ih =>
    intro count n
    unfold bucketLoop
    split
    · exact le_trans (ih (count + 1) (n / 2)) (by omega)
    · omega

/-- The segregated-list update performed by `insert`, spelled out. -/
theorem insert_lists_eq (st : AllocState) (a n : Nat) :
    (insert st a n).lists =
      st.lists.set (bucketPair n).1
        (insertList st (bucketPair n).2 a (st.lists.getD (bucketPair n).1 [])) := rfl

/-- `insert` links the block exactly once more. -/
theorem countAll_insert_self (st : AllocState) (a n : Nat)
    (hlen : st.lists.length = NLISTS) :
    countAll (insert st a n).lists a = countAll st.lists a + 1 := by
  rw [insert_lists_eq]
  apply countAll_set_insertList
  rw [hlen]
  have := bucketLoop_fst_le 19 0 n
  unfold bucketPair NLISTS
  omega

/-- `insert` leaves other blocks' link counts alone. -/
theorem countAll_insert_ne (st : AllocState) (a n y : Nat) (hy : y ≠ a) :
    countAll (insert st a n).lists y = countAll st.lists y := by
  rw [insert_lists_eq]
  apply countAll_set_congr
  exact count_insertList_ne st _ a y hy _

/-- A nonempty list is its `dropLast` followed by its last element. -/
theorem getLast?_decomp (l : List Block) (p : Block) (h : l.getLast? = some p) :
    l = l.dropLast ++ [p] := by
  induction l with
  | nil => simp at h
  | cons x xs ih =>
    cases xs with
    | nil =>
      simp at h
      subst h
      rfl
    | cons y ys =>
      rw [List.getLast?_cons_cons] at h
      have := ih h
      rw [List.dropLast_cons₂, List.cons_append, ← this]

/-! ### C6: coalesce -/

/-- `list_remove` keeps the number of segregated lists. -/
theorem removeAddr_length (lists : List (List Nat)) (x : Nat) :
    (removeAddr lists x).length = lists.length := by
  simp [removeAddr]

/-- Claim C6 (confirmed): for a block `b` just marked free and linked in no
list, on a heap whose only adjacent-free pairs involve `b` itself,
`coalesce(b)` merges `b` with exactly the free neighbours (four cases keyed
on the `inuse` bits of `prev_blk_footer` and `next_blk_header`, FENCEs
reading as in use), removes each absorbed neighbour from its list, and
returns the resulting free block, which is afterwards linked in exactly one
segregated list and has both neighbour tags in use. -/
theorem coalesce_four_cases (st : AllocState) (a : Nat)
    (pre : List Block) (b : Block) (suf : List Block)
    (hsplit : splitAtAddr a 1 st.blks = some (pre, b, suf))
    (hfree : b.inuse = false)
    (hpos : ∀ c ∈ st.blks, 0 < c.size)
    (hlen : st.lists.length = NLISTS)
    (hnotin : countAll st.lists a = 0)
    (hpp : prevInuse pre = false → prevInuse pre.dropLast = true)
    (hnn : nextInuse suf = false → nextInuse suf.tail = true) :
    isFreeBase (coalesce st a).1 (coalesce st a).2 = true ∧
    neighborsInuse (coalesce st a).1 (coalesce st a).2 = true ∧
    countAll (coalesce st a).1.lists (coalesce st a).2 = 1 ∧
    sumSizes (coalesce st a).1.blks = sumSizes st.blks ∧
    (prevInuse pre = true → nextInuse suf = true →
       (coalesce st a).2 = a ∧ (coalesce st a).1.blks = st.blks) ∧
    (prevInuse pre = true → nextInuse suf = false →
       ∃ n rest, suf = n :: rest ∧ (coalesce st a).2 = a ∧
         (coalesce st a).1.blks = pre ++ ⟨b.size + n.size, false⟩ :: rest ∧
         countAll (coalesce st a).1.lists (a + b.size) = 0) ∧
    (prevInuse pre = false → nextInuse suf = true →
       ∃ p, pre.getLast? = some p ∧ (coalesce st a).2 = a - p.size ∧
         (coalesce st a).1.blks = pre.dropLast ++ ⟨p.size + b.size, false⟩ :: suf) ∧
    (prevInuse pre = false → nextInuse suf = false →
       ∃ p n rest, pre.getLast? = some p ∧ suf = n :: rest ∧
         (coalesce st a).2 = a - p.size ∧
         (coalesce st a).1.blks = pre.dropLast ++ ⟨p.size + b.size + n.size, false⟩ :: rest ∧
         countAll (coalesce st a).1.lists (a + b.size) = 0) := by
  obtain ⟨hblks, haddr⟩ := splitAtAddr_eq a st.blks 1 pre b suf hsplit
  have hprepos : ∀ c ∈ pre, 0 < c.size := by
    intro c hc
    exact hpos c (by rw [hblks]; simp [hc])
  have hbpos : 0 < b.size := hpos b (by rw [hblks]; simp)
  cases hPI : prevInuse pre with
  | true =>
    cases hNI : nextInuse suf with
    | true =>
      -- Case 1: both neighbours in use
      have hco := coalesce_case1 st a pre b suf hsplit hPI hNI
      have hco1 : (coalesce st a).1 = insert st a b.size := by rw [hco]
      have hco2 : (coalesce st a).2 = a := by rw [hco]
      rw [hco1, hco2]
      refine ⟨?_, ?_, ?_, ?_, ?_, ?_, ?_, ?_⟩
      · simp only [isFreeBase, insert_blks, hsplit, hfree]
        rfl
      · simp only [neighborsInuse, insert_blks, hsplit, hPI, hNI]
        rfl
      · rw [countAll_insert_self st a b.size hlen, hnotin]
      · rw [insert_blks]
      · intro _ _; exact ⟨rfl, rfl⟩
      · intro _ h; exact Bool.noConfusion h
      · intro h _; exact Bool.noConfusion h
      · intro h _; exact Bool.noConfusion h
    | false =>
      -- Case 2: next free
      cases suf with
      | nil => rw [nextInuse] at hNI; exact Bool.noConfusion hNI
      | cons n rest =>
        have hco : coalesce st a =
            (insert { st with blks := pre ++ ⟨b.size + n.size, false⟩ :: rest,
                              lists := removeAddr st.lists (a + b.size) }
               a (b.size + n.size), a) := by
          unfold coalesce
          simp only [hsplit, hPI, hNI]
        have hco1 : (coalesce st a).1 =
            insert { st with blks := pre ++ ⟨b.size + n.size, false⟩ :: rest,
                             lists := removeAddr st.lists (a + b.size) }
              a (b.size + n.size) := by rw [hco]
        have hco2 : (coalesce st a).2 = a := by rw [hco]
        have hsplitR : splitAtAddr a 1 (pre ++ ⟨b.size + n.size, false⟩ :: rest) =
            some (pre, ⟨b.size + n.size, false⟩, rest) :=
          splitAtAddr_append a pre 1 _ rest hprepos haddr
        have hNR : nextInuse rest = true := hnn hNI
        have hlen1 : (removeAddr st.lists (a + b.size)).length = NLISTS := by
          rw [removeAddr_length, hlen]
        rw [hco1, hco2]
        refine ⟨?_, ?_, ?_, ?_, ?_, ?_, ?_, ?_⟩
        · simp only [isFreeBase, insert_blks, hsplitR]
          rfl
        · simp only [neighborsInuse, insert_blks, hsplitR, hPI, hNR]
          rfl
        · rw [countAll_insert_self _ a (b.size + n.size) hlen1]
          rw [countAll_removeAddr_ne st.lists (a + b.size) a (by omega), hnotin]
        · simp only [insert_blks, hblks, sumSizes_append, sumSizes]
          omega
        · intro _ h; exact Bool.noConfusion h
        · intro _ _
          refine ⟨n, rest, rfl, rfl, rfl, ?_⟩
          rw [countAll_insert_ne _ a (b.size + n.size) (a + b.size) (by omega)]
          exact countAll_removeAddr_self st.lists (a + b.size)
        · intro h _; exact Bool.noConfusion h
        · intro h _; exact Bool.noConfusion h
  | false =>
    have hglne : pre ≠ [] := by
      intro hnil
      rw [hnil, prevInuse] at hPI
      exact Bool.noConfusion hPI
    cases hgl : pre.getLast? with
    | none => exact absurd (List.getLast?_eq_none_iff.mp hgl) hglne
    | some p =>
      have hdecomp := getLast?_decomp pre p hgl
      have hppos : 0 < p.size := by
        apply hpos p
        rw [hblks, hdecomp]
        simp
      have hsumpre : sumSizes pre = sumSizes pre.dropLast + p.size := by
        conv_lhs => rw [hdecomp]
        rw [sumSizes_append]
        simp [sumSizes]
      have hdlpos : ∀ c ∈ pre.dropLast, 0 < c.size := by
        intro c hc
        apply hprepos c
        rw [hdecomp]
        exact List.mem_append_left _ hc
      have hPD : prevInuse pre.dropLast = true := hpp hPI
      cases hNI : nextInuse suf with
      | true =>
        -- Case 3: previous free
        have hco : coalesce st a =
            (insert { st with blks := pre.dropLast ++ ⟨p.size + b.size, false⟩ :: suf,
                              lists := removeAddr st.lists (a - p.size) }
               (a - p.size) (p.size + b.size), a - p.size) := by
          unfold coalesce
          simp only [hsplit, hPI, hNI, hgl]
        have hco1 : (coalesce st a).1 =
            insert { st with blks := pre.dropLast ++ ⟨p.size + b.size, false⟩ :: suf,
                             lists := removeAddr st.lists (a - p.size) }
              (a - p.size) (p.size + b.size) := by rw [hco]
        have hco2 : (coalesce st a).2 = a - p.size := by rw [hco]
        have hsplitR : splitAtAddr (a - p.size) 1
            (pre.dropLast ++ ⟨p.size + b.size, false⟩ :: suf) =
            some (pre.dropLast, ⟨p.size + b.size, false⟩, suf) :=
          splitAtAddr_append _ pre.dropLast 1 _ suf hdlpos (by omega)
        have hlen1 : (removeAddr st.lists (a - p.size)).length = NLISTS := by
          rw [removeAddr_length, hlen]
        rw [hco1, hco2]
        refine ⟨?_, ?_, ?_, ?_, ?_, ?_, ?_, ?_⟩
        · simp only [isFreeBase, insert_blks, hsplitR]
          rfl
        · simp only [neighborsInuse, insert_blks, hsplitR, hPD, hNI]
          rfl
        · rw [countAll_insert_self _ (a - p.size) (p.size + b.size) hlen1]
          rw [countAll_removeAddr_self]
        · simp only [insert_blks, hblks, sumSizes_append, sumSizes]
          omega
        · intro h _; exact Bool.noConfusion h
        · intro h _; exact Bool.noConfusion h
        · intro _ _
          exact ⟨p, rfl, rfl, rfl⟩
        · intro _ h; exact Bool.noConfusion h
      | false =>
        -- Case 4: both neighbours free
        cases suf with
        | nil => rw [nextInuse] at hNI; exact Bool.noConfusion hNI
        | cons n rest =>
          have hco : coalesce st a =
              (insert { st with
                  blks := pre.dropLast ++ ⟨p.size + b.size + n.size, false⟩ :: rest,
                  lists := removeAddr (removeAddr st.lists (a + b.size)) (a - p.size) }
                 (a - p.size) (p.size + b.size + n.size), a - p.size) := by
            unfold coalesce
            simp only [hsplit, hPI, hNI, hgl]
          have hco1 : (coalesce st a).1 =
              insert { st with
                  blks := pre.dropLast ++ ⟨p.size + b.size + n.size, false⟩ :: rest,
                  lists := removeAddr (removeAddr st.lists (a + b.size)) (a - p.size) }
                (a - p.size) (p.size + b.size + n.size) := by rw [hco]
          have hco2 : (coalesce st a).2 = a - p.size := by rw [hco]
          have hsplitR : splitAtAddr (a - p.size) 1
              (pre.dropLast ++ ⟨p.size + b.size + n.size, false⟩ :: rest) =
              some (pre.dropLast, ⟨p.size + b.size + n.size, false⟩, rest) :=
            splitAtAddr_append _ pre.dropLast 1 _ rest hdlpos (by omega)
          have hNR : nextInuse rest = true := hnn hNI
          have hlen1 :
              (removeAddr (removeAddr st.lists (a + b.size)) (a - p.size)).length
                = NLISTS := by
            rw [removeAddr_length, removeAddr_length, hlen]
          rw [hco1, hco2]
          refine ⟨?_, ?_, ?_, ?_, ?_, ?_, ?_, ?_⟩
          · simp only [isFreeBase, insert_blks, hsplitR]
            rfl
          · simp only [neighborsInuse, insert_blks, hsplitR, hPD, hNR]
            rfl
          · rw [countAll_insert_self _ (a - p.size) (p.size + b.size + n.size) hlen1]
            rw [countAll_removeAddr_self]
          · simp only [insert_blks, hblks, sumSizes_append, sumSizes]
            omega
          · intro h _; exact Bool.noConfusion h
          · intro h _; exact Bool.noConfusion h
          · intro _ h; exact Bool.noConfusion h
          · intro _ _
            refine ⟨p, n, rest, rfl, rfl, rfl, rfl, ?_⟩
            rw [countAll_insert_ne _ (a - p.size) (p.size + b.size + n.size) (a + b.size)
              (by omega)]
            rw [countAll_removeAddr_ne _ (a - p.size) (a + b.size) (by omega)]
            exact countAll_removeAddr_self st.lists (a + b.size)

/-- Heap [used 4 @1][freshly freed 6 @5][free 4 @11 linked in list 2]. -/
def stCo : AllocState :=
  ⟨[⟨4, true⟩, ⟨6, false⟩, ⟨4, false⟩], (List.replicate 20 []).set 2 [11], 0⟩

/-- Witness for C6: coalescing the 6-word block at 5 absorbs its free
successor, yielding one 10-word free block linked exactly once with both
neighbour tags in use. -/
theorem coalesce_four_cases_witness :
    (coalesce stCo 5).2 = 5 ∧
    (coalesce stCo 5).1.blks = [⟨4, true⟩, ⟨10, false⟩] ∧
    countAll (coalesce stCo 5).1.lists 5 = 1 ∧
    neighborsInuse (coalesce stCo 5).1 5 = true := by
  have h := coalesce_four_cases stCo 5 [⟨4, true⟩] ⟨6, false⟩ [⟨4, false⟩]
    (by decide) (by decide) (by decide) (by decide) (by decide) (by decide) (by decide)
  have h2 : (coalesce stCo 5).2 = 5 := by decide
  refine ⟨h2, by decide, ?_, ?_⟩
  · have hc := h.2.2.1
    rw [h2] at hc
    exact hc
  · have hc := h.2.1
    rw [h2] at hc
    exact hc

/-! ### The alignment invariant: even block sizes, odd base addresses -/

/-- Every block's word size is even (request adjustment aligns to a
doubleword, `extend_heap` rounds to an even count, splits and merges of even
sizes stay even). -/
def EvenSizes (st : AllocState) : Prop := ∀ c ∈ st.blks, c.size % 2 = 0

/-- Every address linked in a segregated list is odd (a block base). -/
def OddEntriesL (lists : List (List Nat)) : Prop :=
  ∀ l ∈ lists, ∀ x ∈ l, x % 2 = 1

/-- The state invariant backing the 8-byte alignment property. -/
def AllocInv (st : AllocState) : Prop := EvenSizes st ∧ OddEntriesL st.lists

/-- A run of even-sized blocks has even total size. -/
theorem sumSizes_even (bs : List Block) (h : ∀ c ∈ bs, c.size % 2 = 0) :
    sumSizes bs % 2 = 0 := by
  induction bs with
  | nil => rfl
  | cons b bs ih =>
    have hb := h b (by simp)
    have hbs := ih (fun c hc => h c (by simp [hc]))
    simp only [sumSizes]
    omega

/-- On an even-sized tiling every block base (walked from word 1) is odd. -/
theorem base_odd (blks : List Block) (addr : Nat)
    (pre : List Block) (b : Block) (suf : List Block)
    (hsplit : splitAtAddr addr 1 blks = some (pre, b, suf))
    (heven : ∀ c ∈ blks, c.size % 2 = 0) : addr % 2 = 1 := by
  obtain ⟨hblks, haddr⟩ := splitAtAddr_eq addr blks 1 pre b suf hsplit
  have hpre : sumSizes pre % 2 = 0 := by
    apply sumSizes_even
    intro c hc
    exact heven c (by rw [hblks]; simp [hc])
  omega

/-- Membership in the scan-and-link result. -/
theorem mem_insertList (st : AllocState) (key a x : Nat) :
    ∀ l : List Nat, x ∈ insertList st key a l → x = a ∨ x ∈ l := by
  intro l
  induction l with
  | nil =>
    intro h
    unfold insertList at h
    rw [List.mem_singleton] at h
    exact Or.inl h
  | cons y ys ih =>
    intro h
    unfold insertList at h
    by_cases hk : key ≤ sizeOfBlk st y
    · rw [if_pos hk] at h
      rcases List.mem_cons.mp h with h1 | h2
      · exact Or.inl h1
      · exact Or.inr h2
    · rw [if_neg hk] at h
      rcases List.mem_cons.mp h with h1 | h2
      · exact Or.inr (by simp [h1])
      · rcases ih h2 with h3 | h3
        · exact Or.inl h3
        · exact Or.inr (by simp [h3])

/-- An element of `lists.getD k []` lives in one of the lists. -/
theorem mem_getD (lists : List (List Nat)) (k : Nat) (x : Nat)
    (h : x ∈ lists.getD k []) : ∃ l ∈ lists, x ∈ l := by
  by_cases hk : k < lists.length
  · rw [List.getD_eq_getElem lists [] hk] at h
    exact ⟨lists[k], List.getElem_mem hk, h⟩
  · rw [List.getD_eq_default lists [] (by omega)] at h
    simp at h

/-- `insert` keeps all linked addresses odd when the new base is odd. -/
theorem oddEntries_insert (st : AllocState) (a n : Nat)
    (hodd : OddEntriesL st.lists) (ha : a % 2 = 1) :
    OddEntriesL (insert st a n).lists := by
  rw [insert_lists_eq]
  intro l hl x hx
  rcases List.mem_or_eq_of_mem_set hl with hmem | hset
  · exact hodd l hmem x hx
  · subst hset
    rcases mem_insertList st _ a x _ hx with hxa | hxl
    · subst hxa; exact ha
    · obtain ⟨l2, hl2, hx2⟩ := mem_getD _ _ _ hxl
      exact hodd l2 hl2 x hx2

/-- `list_remove` keeps all linked addresses odd. -/
theorem oddEntries_removeAddr (lists : List (List Nat)) (x : Nat)
    (hodd : OddEntriesL lists) : OddEntriesL (removeAddr lists x) := by
  intro l hl y hy
  simp only [removeAddr, List.mem_map] at hl
  obtain ⟨l0, hl0, hfl⟩ := hl
  subst hfl
  exact hodd l0 hl0 y (List.mem_of_mem_filter hy)

/-- Splitting two even parts off an even block keeps all sizes even, and the
used part's base stays odd; the full-use branch removes the block's links. -/
theorem place_inv (st : AllocState) (a n : Nat)
    (hinv : AllocInv st) (hn : n % 2 = 0) :
    AllocInv (place st a n).1 ∧ (a % 2 = 1 → (place st a n).2 % 2 = 1) := by
  obtain ⟨he, ho⟩ := hinv
  cases hsp : splitAtAddr a 1 st.blks with
  | none =>
    simp only [place, hsp]
    exact ⟨⟨he, ho⟩, fun h => h⟩
  | some t =>
    obtain ⟨pre, b, suf⟩ := t
    obtain ⟨hblks, haddr⟩ := splitAtAddr_eq a st.blks 1 pre b suf hsp
    have hpre : ∀ c ∈ pre, c.size % 2 = 0 := fun c hc => he c (by rw [hblks]; simp [hc])
    have hb : b.size % 2 = 0 := he b (by rw [hblks]; simp)
    have hsuf : ∀ c ∈ suf, c.size % 2 = 0 := fun c hc => he c (by rw [hblks]; simp [hc])
    simp only [place, hsp]
    by_cases hc4 : MINBLOCK ≤ b.size - n
    · rw [if_pos hc4]
      refine ⟨⟨?_, ho⟩, ?_⟩
      · intro c hc
        rcases List.mem_append.mp hc with h1 | h1
        · exact hpre c h1
        · rcases List.mem_cons.mp h1 with h2 | h2
          · subst h2; show (b.size - n) % 2 = 0; omega
          · rcases List.mem_cons.mp h2 with h3 | h3
            · subst h3; exact hn
            · exact hsuf c h3
      · intro ha
        show (a + (b.size - n)) % 2 = 1
        omega
    · rw [if_neg hc4]
      refine ⟨⟨?_, oddEntries_removeAddr st.lists a ho⟩, fun h => h⟩
      intro c hc
      rcases List.mem_append.mp hc with h1 | h1
      · exact hpre c h1
      · rcases List.mem_cons.mp h1 with h2 | h2
        · subst h2; exact hb
        · exact hsuf c h2

/-- `coalesce` preserves the alignment invariant and returns an odd block
base (merged sizes are sums of even sizes; the result base is either the
original base or the previous block's base, both odd). -/
theorem coalesce_inv (st : AllocState) (a : Nat) (hinv : AllocInv st) :
    AllocInv (coalesce st a).1 ∧ (a % 2 = 1 → (coalesce st a).2 % 2 = 1) := by
  obtain ⟨he, ho⟩ := hinv
  cases hsp : splitAtAddr a 1 st.blks with
  | none =>
    simp only [coalesce, hsp]
    exact ⟨⟨he, ho⟩, fun h => h⟩
  | some t =>
    obtain ⟨pre, b, suf⟩ := t
    obtain ⟨hblks, haddr⟩ := splitAtAddr_eq a st.blks 1 pre b suf hsp
    have hpre : ∀ c ∈ pre, c.size % 2 = 0 := fun c hc => he c (by rw [hblks]; simp [hc])
    have hb : b.size % 2 = 0 := he b (by rw [hblks]; simp)
    have hsuf : ∀ c ∈ suf, c.size % 2 = 0 := fun c hc => he c (by rw [hblks]; simp [hc])
    have hpree : sumSizes pre % 2 = 0 := sumSizes_even pre hpre
    have ha : a % 2 = 1 := by omega
    cases hPI : prevInuse pre with
    | true =>
      cases hNI : nextInuse suf with
      | true =>
        have hco1 : (coalesce st a).1 = insert st a b.size := by
          rw [coalesce_case1 st a pre b suf hsp hPI hNI]
        have hco2 : (coalesce st a).2 = a := by
          rw [coalesce_case1 st a pre b suf hsp hPI hNI]
        rw [hco1, hco2]
        exact ⟨⟨he, oddEntries_insert st a b.size ho ha⟩, fun _ => ha⟩
      | false =>
        cases suf with
        | nil => rw [nextInuse] at hNI; exact Bool.noConfusion hNI
        | cons n rest =>
          have hco : coalesce st a =
              (insert { st with blks := pre ++ ⟨b.size + n.size, false⟩ :: rest,
                                lists := removeAddr st.lists (a + b.size) }
                 a (b.size + n.size), a) := by
            unfold coalesce
            simp only [hsp, hPI, hNI]
          have hco1 := congrArg Prod.fst hco
          have hco2 := congrArg Prod.snd hco
          simp only at hco1 hco2
          rw [hco1, hco2]
          refine ⟨⟨?_, oddEntries_insert _ a _ (oddEntries_removeAddr _ _ ho) ha⟩,
            fun _ => ha⟩
          intro c hc
          rcases List.mem_append.mp hc with h1 | h1
          · exact hpre c h1
          · rcases List.mem_cons.mp h1 with h2 | h2
            · subst h2
              have hn : n.size % 2 = 0 := hsuf n (by simp)
              show (b.size + n.size) % 2 = 0
              omega
            · exact hsuf c (by simp [h2])
    | false =>
      have hglne : pre ≠ [] := by
        intro hnil
        rw [hnil, prevInuse] at hPI
        exact Bool.noConfusion hPI
      cases hgl : pre.getLast? with
      | none => exact absurd (List.getLast?_eq_none_iff.mp hgl) hglne
      | some p =>
        have hdecomp := getLast?_decomp pre p hgl
        have hpe : p.size % 2 = 0 := hpre p (by rw [hdecomp]; simp)
        have hsumpre : sumSizes pre = sumSizes pre.dropLast + p.size := by
          conv_lhs => rw [hdecomp]
          rw [sumSizes_append]
          simp [sumSizes]
        have hdl : ∀ c ∈ pre.dropLast, c.size % 2 = 0 := by
          intro c hc
          exact hpre c (by rw [hdecomp]; exact List.mem_append_left _ hc)
        have hdle : sumSizes pre.dropLast % 2 = 0 := sumSizes_even _ hdl
        have hr : (a - p.size) % 2 = 1 := by omega
        cases hNI : nextInuse suf with
        | true =>
          have hco : coalesce st a =
              (insert { st with blks := pre.dropLast ++ ⟨p.size + b.size, false⟩ :: suf,
                                lists := removeAddr st.lists (a - p.size) }
                 (a - p.size) (p.size + b.size), a - p.size) := by
            unfold coalesce
            simp only [hsp, hPI, hNI, hgl]
          have hco1 := congrArg Prod.fst hco
          have hco2 := congrArg Prod.snd hco
          simp only at hco1 hco2
          rw [hco1, hco2]
          refine ⟨⟨?_, oddEntries_insert _ (a - p.size) _
            (oddEntries_removeAddr _ _ ho) hr⟩, fun _ => hr⟩
          intro c hc
          rcases List.mem_append.mp hc with h1 | h1
          · exact hdl c h1
          · rcases List.mem_cons.mp h1 with h2 | h2
            · subst h2; show (p.size + b.size) % 2 = 0; omega
            · exact hsuf c h2
        | false =>
          cases suf with
          | nil => rw [nextInuse] at hNI; exact Bool.noConfusion hNI
          | cons n rest =>
            have hco : coalesce st a =
                (insert { st with
                    blks := pre.dropLast ++ ⟨p.size + b.size + n.size, false⟩ :: rest,
                    lists := removeAddr (removeAddr st.lists (a + b.size)) (a - p.size) }
                   (a - p.size) (p.size + b.size + n.size), a - p.size) := by
              unfold coalesce
              simp only [hsp, hPI, hNI, hgl]
            have hco1 := congrArg Prod.fst hco
            have hco2 := congrArg Prod.snd hco
            simp only at hco1 hco2
            rw [hco1, hco2]
            refine ⟨⟨?_, oddEntries_insert _ (a - p.size) _
              (oddEntries_removeAddr _ _ (oddEntries_removeAddr _ _ ho)) hr⟩,
              fun _ => hr⟩
            intro c hc
            rcases List.mem_append.mp hc with h1 | h1
            · exact hdl c h1
            · rcases List.mem_cons.mp h1 with h2 | h2
              · subst h2
                have hn : n.size % 2 = 0 := hsuf n (by simp)
                show (p.size + b.size + n.size) % 2 = 0
                omega
              · exact hsuf c (by simp [h2])

/-- `extend_heap` preserves the alignment invariant, and the returned block
base is odd. -/
theorem extend_heap_inv (st : AllocState) (w : Nat) (hinv : AllocInv st) :
    ∀ st2 r, extend_heap st w = some (st2, r) → AllocInv st2 ∧ r % 2 = 1 := by
  intro st2 r h
  simp only [extend_heap] at h
  by_cases hle : max (evenUp w) MINBLOCK ≤ st.avail
  · rw [if_pos hle] at h
    simp only [Option.some.injEq] at h
    have hbase : (1 + sumSizes st.blks) % 2 = 1 := by
      have := sumSizes_even st.blks hinv.1
      omega
    have hEinv : AllocInv { st with
        blks := st.blks ++ [⟨max (evenUp w) MINBLOCK, false⟩],
        avail := st.avail - max (evenUp w) MINBLOCK } := by
      refine ⟨?_, hinv.2⟩
      intro c hc
      rcases List.mem_append.mp hc with h1 | h1
      · exact hinv.1 c h1
      · rw [List.mem_singleton] at h1
        subst h1
        show (max (evenUp w) MINBLOCK) % 2 = 0
        unfold evenUp MINBLOCK
        omega
    have hcoal := coalesce_inv _ (1 + sumSizes st.blks) hEinv
    have h1 : (coalesce { st with
        blks := st.blks ++ [⟨max (evenUp w) MINBLOCK, false⟩],
        avail := st.avail - max (evenUp w) MINBLOCK } (1 + sumSizes st.blks)).1 = st2 := by
      rw [h]
    have h2 : (coalesce { st with
        blks := st.blks ++ [⟨max (evenUp w) MINBLOCK, false⟩],
        avail := st.avail - max (evenUp w) MINBLOCK } (1 + sumSizes st.blks)).2 = r := by
      rw [h]
    rw [← h1, ← h2]
    exact ⟨hcoal.1, hcoal.2 hbase⟩
  · rw [if_neg hle] at h
    exact absurd h (by simp)

/-- A hit of the inner `find_fit` walk is a member of the walked list. -/
theorem findInList_mem (st : AllocState) (n : Nat) :
    ∀ (l : List Nat) (x : Nat), findInList st n l = some x → x ∈ l := by
  intro l
  induction l with
  | nil => intro x h; simp [findInList] at h
  | cons y ys ih =>
    intro x h
    unfold findInList at h
    by_cases hc : n ≤ sizeOfBlk st y
    · rw [if_pos hc] at h
      simp only [Option.some.injEq] at h
      simp [h]
    · rw [if_neg hc] at h
      exact List.mem_cons_of_mem y (ih x h)

/-- A hit of the outer `find_fit` scan lies in one of the scanned lists. -/
theorem findFitLists_mem (st : AllocState) (n : Nat) :
    ∀ (L : List (List Nat)) (x : Nat), findFitLists st n L = some x →
      ∃ l ∈ L, x ∈ l := by
  intro L
  induction L with
  | nil => intro x h; simp [findFitLists] at h
  | cons l ls ih =>
    intro x h
    unfold findFitLists at h
    cases hf : findInList st n l with
    | some y =>
      rw [hf] at h
      simp only [Option.some.injEq] at h
      exact ⟨l, by simp, by rw [← h]; exact findInList_mem st n l y hf⟩
    | none =>
      rw [hf] at h
      obtain ⟨l2, hl2, hx⟩ := ih x h
      exact ⟨l2, by simp [hl2], hx⟩

/-- `find_fit` only ever returns linked block bases. -/
theorem find_fit_mem (st : AllocState) (n x : Nat) (h : find_fit st n = some x) :
    ∃ l ∈ st.lists, x ∈ l := by
  obtain ⟨l, hl, hx⟩ := findFitLists_mem st n _ x h
  exact ⟨l, List.drop_subset _ _ hl, hx⟩

/-- `mm_malloc` preserves the alignment invariant and returns odd bases. -/
theorem mm_malloc_inv (st : AllocState) (s : Nat) (hinv : AllocInv st) :
    AllocInv (mm_malloc st s).1 ∧
    (∀ r, (mm_malloc st s).2 = some r → r % 2 = 1) := by
  by_cases h0 : s = 0
  · simp only [mm_malloc, if_pos h0]
    exact ⟨hinv, by intro r h; simp at h⟩
  · simp only [mm_malloc, if_neg h0]
    have hae := adjustWords_even s
    cases hf : find_fit st (adjustWords s) with
    | some a =>
      simp only [hf]
      obtain ⟨l, hl, hal⟩ := find_fit_mem st (adjustWords s) a hf
      have ha : a % 2 = 1 := hinv.2 l hl a hal
      have hp := place_inv st a (adjustWords s) hinv hae
      refine ⟨hp.1, ?_⟩
      intro r h
      simp only [Option.some.injEq] at h
      rw [← h]
      exact hp.2 ha
    | none =>
      simp only [hf]
      cases he : extend_heap st (max (adjustWords s) CHUNKSIZE) with
      | none =>
        simp only [he]
        exact ⟨hinv, by intro r h; simp at h⟩
      | some t =>
        obtain ⟨st1, b⟩ := t
        simp only [he]
        have hext := extend_heap_inv st _ hinv st1 b he
        have hp := place_inv st1 b (adjustWords s) hext.1 hae
        refine ⟨hp.1, ?_⟩
        intro r h
        simp only [Option.some.injEq] at h
        rw [← h]
        exact hp.2 hext.2

/-- `mm_free` preserves the alignment invariant. -/
theorem mm_free_inv (st : AllocState) (a : Nat) (hinv : AllocInv st) :
    AllocInv (mm_free st a) := by
  cases hsp : splitAtAddr a 1 st.blks with
  | none => simp only [mm_free, hsp]; exact hinv
  | some t =>
    obtain ⟨pre, b, suf⟩ := t
    simp only [mm_free, hsp]
    obtain ⟨hblks, haddr⟩ := splitAtAddr_eq a st.blks 1 pre b suf hsp
    have hinv1 : AllocInv { st with blks := pre ++ ⟨b.size, false⟩ :: suf } := by
      refine ⟨?_, hinv.2⟩
      intro c hc
      rcases List.mem_append.mp hc with h1 | h1
      · exact hinv.1 c (by rw [hblks]; simp [h1])
      · rcases List.mem_cons.mp h1 with h2 | h2
        · subst h2
          exact hinv.1 b (by rw [hblks]; simp)
        · exact hinv.1 c (by rw [hblks]; simp [h2])
    exact (coalesce_inv _ a hinv1).1

/-- Absorbing the successor block preserves the alignment invariant. -/
theorem markUsedAbsorbNext_inv (st : AllocState) (a : Nat) (hinv : AllocInv st) :
    AllocInv (markUsedAbsorbNext st a) := by
  unfold markUsedAbsorbNext
  split
  · rename_i pre b n rest hsp
    obtain ⟨hblks, _⟩ := splitAtAddr_eq a st.blks 1 pre b (n :: rest) hsp
    refine ⟨?_, hinv.2⟩
    intro c hc
    rcases List.mem_append.mp hc with h1 | h1
    · exact hinv.1 c (by rw [hblks]; simp [h1])
    · rcases List.mem_cons.mp h1 with h2 | h2
      · subst h2
        have hb := hinv.1 b (by rw [hblks]; simp)
        have hn := hinv.1 n (by rw [hblks]; simp)
        show (b.size + n.size) % 2 = 0
        omega
      · exact hinv.1 c (by rw [hblks]; simp [h2])
  · exact hinv

/-- The realloc fallback preserves the alignment invariant and returns the
odd base handed out by the inner `mm_malloc`. -/
theorem reallocFallback_inv (st : AllocState) (a s os : Nat) (hinv : AllocInv st) :
    AllocInv (reallocFallback st a s os).st ∧
    (∀ r, (reallocFallback st a s os).ret = some r → r % 2 = 1) := by
  have hm := mm_malloc_inv st s hinv
  unfold reallocFallback
  cases hmal : mm_malloc st s with
  | mk st1 ret =>
    rw [hmal] at hm
    simp only at hm
    cases ret with
    | none => exact ⟨hm.1, by intro r h; simp at h⟩
    | some nb =>
      have hnb : nb % 2 = 1 := hm.2 nb rfl
      refine ⟨mm_free_inv st1 a hm.1, ?_⟩
      intro r h
      simp only [Option.some.injEq] at h
      omega

/-- `mm_realloc` preserves the alignment invariant and returns odd bases. -/
theorem mm_realloc_inv (st : AllocState) (p : Option Nat) (s : Nat)
    (hinv : AllocInv st) :
    AllocInv (mm_realloc_full st p s).st ∧
    (∀ r, (mm_realloc_full st p s).ret = some r → r % 2 = 1) := by
  cases p with
  | none =>
    simp only [mm_realloc_full]
    exact mm_malloc_inv st s hinv
  | some a =>
    by_cases h0 : s = 0
    · simp only [mm_realloc_full, if_pos h0]
      exact ⟨mm_free_inv st a hinv, by intro r h; simp at h⟩
    · simp only [mm_realloc_full, if_neg h0]
      cases hsp : splitAtAddr a 1 st.blks with
      | none =>
        simp only [hsp]
        exact ⟨hinv, by intro r h; simp at h⟩
      | some t =>
        obtain ⟨pre, oldb, suf⟩ := t
        simp only [hsp]
        obtain ⟨hblks, haddr⟩ := splitAtAddr_eq a st.blks 1 pre oldb suf hsp
        have hae := adjustWords_even s
        have hpre : ∀ c ∈ pre, c.size % 2 = 0 := fun c hc =>
          hinv.1 c (by rw [hblks]; simp [hc])
        have hob : oldb.size % 2 = 0 := hinv.1 oldb (by rw [hblks]; simp)
        have hsuf : ∀ c ∈ suf, c.size % 2 = 0 := fun c hc =>
          hinv.1 c (by rw [hblks]; simp [hc])
        have hpree := sumSizes_even pre hpre
        have ha : a % 2 = 1 := by omega
        by_cases hshr : adjustWords s ≤ oldb.size
        · rw [if_pos hshr]
          by_cases hmin : MINBLOCK ≤ oldb.size - adjustWords s
          · rw [if_pos hmin]
            refine ⟨⟨?_, oddEntries_insert _ (a + adjustWords s) _ hinv.2 (by omega)⟩,
              ?_⟩
            · intro c hc
              rcases List.mem_append.mp hc with h1 | h1
              · exact hpre c h1
              · rcases List.mem_cons.mp h1 with h2 | h2
                · subst h2; exact hae
                · rcases List.mem_cons.mp h2 with h3 | h3
                  · subst h3
                    show (oldb.size - adjustWords s) % 2 = 0
                    omega
                  · exact hsuf c h3
            · intro r h
              simp only [Option.some.injEq] at h
              omega
          · rw [if_neg hmin]
            refine ⟨hinv, ?_⟩
            intro r h
            simp only [Option.some.injEq] at h
            omega
        · rw [if_neg hshr]
          cases suf with
          | nil =>
            cases he : extend_heap st (max (adjustWords s - oldb.size) CHUNKSIZE) with
            | none =>
              simp only [he]
              exact ⟨hinv, by intro r h; simp at h⟩
            | some t2 =>
              obtain ⟨st1, nb⟩ := t2
              simp only [he]
              have hext := extend_heap_inv st _ hinv st1 nb he
              have hst2 : AllocInv { st1 with lists := removeAddr st1.lists nb } :=
                ⟨hext.1.1, oddEntries_removeAddr _ _ hext.1.2⟩
              refine ⟨markUsedAbsorbNext_inv _ a hst2, ?_⟩
              intro r h
              simp only [Option.some.injEq] at h
              omega
          | cons nb rest =>
            dsimp only
            have hnb : nb.size % 2 = 0 := hsuf nb (by simp)
            by_cases hfree2 : nb.inuse = false
            · rw [if_pos hfree2]
              by_cases hc3 : adjustWords s ≤ oldb.size + nb.size
              · rw [if_pos hc3]
                by_cases hm3 : MINBLOCK ≤ oldb.size + nb.size - adjustWords s
                · rw [if_pos hm3]
                  refine ⟨⟨?_, oddEntries_insert _ (a + adjustWords s) _
                    (oddEntries_removeAddr _ _ hinv.2) (by omega)⟩, ?_⟩
                  · intro c hc
                    rcases List.mem_append.mp hc with h1 | h1
                    · exact hpre c h1
                    · rcases List.mem_cons.mp h1 with h2 | h2
                      · subst h2; exact hae
                      · rcases List.mem_cons.mp h2 with h3 | h3
                        · subst h3
                          show (oldb.size + nb.size - adjustWords s) % 2 = 0
                          omega
                        · exact hsuf c (by simp [h3])
                  · intro r h
                    simp only [Option.some.injEq] at h
                    omega
                · rw [if_neg hm3]
                  refine ⟨⟨?_, oddEntries_removeAddr _ _ hinv.2⟩, ?_⟩
                  · intro c hc
                    rcases List.mem_append.mp hc with h1 | h1
                    · exact hpre c h1
                    · rcases List.mem_cons.mp h1 with h2 | h2
                      · subst h2
                        show (oldb.size + nb.size) % 2 = 0
                        omega
                      · exact hsuf c (by simp [h2])
                  · intro r h
                    simp only [Option.some.injEq] at h
                    omega
              · rw [if_neg hc3]
                by_cases hrest : rest = []
                · rw [if_pos hrest]
                  cases he : extend_heap st
                      (max (adjustWords s - oldb.size - nb.size) CHUNKSIZE) with
                  | none =>
                    simp only [he]
                    exact ⟨hinv, by intro r h; simp at h⟩
                  | some t2 =>
                    obtain ⟨st1, nb2⟩ := t2
                    simp only [he]
                    have hext := extend_heap_inv st _ hinv st1 nb2 he
                    have hst2 : AllocInv
                        { st1 with lists := removeAddr st1.lists (a + oldb.size) } :=
                      ⟨hext.1.1, oddEntries_removeAddr _ _ hext.1.2⟩
                    refine ⟨markUsedAbsorbNext_inv _ a hst2, ?_⟩
                    intro r h
                    simp only [Option.some.injEq] at h
                    omega
                · rw [if_neg hrest]
                  exact reallocFallback_inv st a s oldb.size hinv
            · rw [if_neg hfree2]
              exact reallocFallback_inv st a s oldb.size hinv

/-- A successful `mm_init` establishes the alignment invariant. -/
theorem initState_inv (avail : Nat) (st : AllocState)
    (h : initState avail = some st) : AllocInv st := by
  unfold initState at h
  by_cases h2 : 2 ≤ avail
  · rw [if_pos h2] at h
    have hbase : AllocInv
        { blks := [], lists := List.replicate NLISTS [], avail := avail - 2 } := by
      refine ⟨by intro c hc; simp at hc, ?_⟩
      intro l hl x hx
      rw [List.eq_of_mem_replicate hl] at hx
      simp at hx
    cases he : extend_heap
        { blks := [], lists := List.replicate NLISTS [], avail := avail - 2 }
        CHUNKSIZE with
    | none => rw [he] at h; exact absurd h (by simp)
    | some t =>
      obtain ⟨st1, b⟩ := t
      rw [he] at h
      simp only [Option.some.injEq] at h
      rw [← h]
      exact (extend_heap_inv _ _ hbase st1 b he).1
  · rw [if_neg h2] at h
    exact absurd h (by simp)

/-- Every state reachable by a valid call sequence satisfies the invariant. -/
theorem reachable_inv (st : AllocState) (h : Reachable st) : AllocInv st := by
  induction h with
  | init avail st h => exact initState_inv avail st h
  | malloc st s _ ih => exact (mm_malloc_inv st s ih).1
  | free st a _ _ ih => exact mm_free_inv st a ih
  | realloc st p s _ _ ih => exact (mm_realloc_inv st p s ih).1

/-- Claim C9 (confirmed): in every state reachable by a valid sequence of
public calls from `mm_init`, any non-null pointer handed out by `mm_malloc`
or `mm_realloc` is a block base at an odd word index, so — with the region
provider's base 8-byte aligned — its payload byte address
`heapBase + 4*base + 4` is divisible by 8. -/
theorem malloc_realloc_alignment (st : AllocState) (hreach : Reachable st)
    (heapBase : Nat) (hbase : heapBase % 8 = 0) :
    (∀ s st2 r, mm_malloc st s = (st2, some r) → payloadAddr heapBase r % 8 = 0) ∧
    (∀ p s st2 r, mm_realloc st p s = (st2, some r) →
      payloadAddr heapBase r % 8 = 0) := by
  have hinv := reachable_inv st hreach
  constructor
  · intro s st2 r h
    have h2 : (mm_malloc st s).2 = some r := by rw [h]
    have hr := (mm_malloc_inv st s hinv).2 r h2
    unfold payloadAddr
    omega
  · intro p s st2 r h
    have h2 : (mm_realloc_full st p s).ret = some r := by
      have h3 : (mm_realloc st p s).2 = some r := by rw [h]
      exact h3
    have hr := (mm_realloc_inv st p s hinv).2 r h2
    unfold payloadAddr
    omega

/-- Witness for C9: on the freshly initialised heap, `malloc(1)` returns the
block base 253 and its payload byte address `4*253 + 4 = 1016` is 8-aligned. -/
theorem malloc_realloc_alignment_witness :
    Reachable trA ∧
    (0 : Nat) % 8 = 0 ∧
    mm_malloc trA 1 = (trF, some 253) ∧
    payloadAddr 0 253 % 8 = 0 := by
  have hre : Reachable trA := Reachable.init 600 trA (by decide)
  have h := malloc_realloc_alignment trA hre 0 (by decide)
  exact ⟨hre, by decide, by decide, h.1 1 trF 253 (by decide)⟩
